import Mathlib

/-!
Shallow embedding of the `amd-flash` crate (files `src/lib.rs`,
`src/allocators.rs`, `src/block.rs`).

Machine integers are modelled as `Nat` with explicit bounds: `u32` values are
kept below `U32 = 2 ^ 32` and `usize` is modelled as 64 bits wide
(`USIZE = 2 ^ 64`).  Fallible Rust functions returning `Result` become
`Except Error`; functions that can abort through `assert!` or `unwrap()`
return `Option` with `none` standing for the abort.
-/

/-- The `u32` modulus: `Location` is a `u32`. -/
def U32 : Nat := 2 ^ 32

/-- The `usize` modulus; `usize` is modelled as 64 bits wide. -/
def USIZE : Nat := 2 ^ 64

/-- Error taxonomy from `lib.rs` (`Io`, `Alignment`, `Programmer`).  The
`Size` constructor is used by `allocators.rs` (`Error::Size`) although the
enum body shown in `lib.rs` does not list it; it is modelled from the spec
error taxonomy (a requested extent does not fit in the remaining space). -/
inductive Error where
  | Io
  | Alignment
  | Programmer
  | Size
deriving DecidableEq, Repr

/-- `ErasableLocation` from `lib.rs`: a flash `Location` (`u32`) together with
the erase-block size (`usize`) it is aligned to. -/
structure ErasableLocation where
  location : Nat
  erasable_block_size : Nat
deriving DecidableEq, Repr

/-- `(self.erasable_block_size as u32) - 1`: the cast truncates modulo `2^32`;
the subtraction is `Nat` subtraction (the Rust debug-mode underflow at a block
size that is a multiple of `2^32` is outside every claim, which all have
`0 < erasable_block_size < 2^32`). -/
def ErasableLocation.erasable_block_mask (self : ErasableLocation) : Nat :=
  self.erasable_block_size % U32 - 1

/-- `ErasableLocation::extent`: `end.saturating_sub(beginning)` (`Nat`
subtraction saturates exactly like `saturating_sub`). -/
def ErasableLocation.extent (beginning end_ : ErasableLocation) : Nat :=
  end_.location - beginning.location

/-- `ErasableLocation::advance`: requires `amount` to be a multiple of the
block size (checked with the mask), then `checked_add` on `usize` and
`try_into` back to `u32`; every failure is `Error::Alignment`. -/
def ErasableLocation.advance (self : ErasableLocation) (amount : Nat) :
    Except Error ErasableLocation :=
  if amount &&& self.erasable_block_mask ≠ 0 then
    .error .Alignment
  else if self.location + amount < USIZE then
    if self.location + amount < U32 then
      .ok ⟨self.location + amount, self.erasable_block_size⟩
    else
      .error .Alignment
  else
    .error .Alignment

/-- `ErasableLocation::advance_at_least`: round `amount` up to a multiple of
the block size via `0usize.wrapping_sub(amount) & mask`, then `advance`. -/
def ErasableLocation.advance_at_least (self : ErasableLocation) (amount : Nat) :
    Except Error ErasableLocation :=
  let diff := (USIZE - amount % USIZE) % USIZE &&& self.erasable_block_mask
  if amount + diff < USIZE then
    self.advance (amount + diff)
  else
    .error .Alignment

/-- `ErasableRange` from `lib.rs`: a pair of `ErasableLocation`s (the field
`end` is a Lean keyword, hence `end_`). -/
structure ErasableRange where
  beginning : ErasableLocation
  end_ : ErasableLocation
deriving DecidableEq, Repr

/-- `ErasableRange::new` with its `assert!(beginning <= end)` modelled as
`none` on violation. -/
def ErasableRange.new? (beginning end_ : ErasableLocation) :
    Option ErasableRange :=
  if beginning.location ≤ end_.location then some ⟨beginning, end_⟩ else none

/-- `ErasableRange::split_at_least`: `advance_at_least(size).unwrap()` (the
`unwrap` abort is `none`), then two `ErasableRange::new` calls whose asserts
can also abort. -/
def ErasableRange.split_at_least (self : ErasableRange) (size : Nat) :
    Option (ErasableRange × ErasableRange) :=
  match self.beginning.advance_at_least size with
  | .error _ => none
  | .ok x_end => do
    let a ← ErasableRange.new? self.beginning x_end
    let b ← ErasableRange.new? x_end self.end_
    pure (a, b)

/-- `ErasableRange::capacity` in bytes. -/
def ErasableRange.capacity (self : ErasableRange) : Nat :=
  ErasableLocation.extent self.beginning self.end_

/-- Modelled from the spec: `ErasableRange::take_at_least` is called from
`allocators.rs` but its definition is not among the given source files (only
its callers are).  Spec section 4.3 (`splitRoundUp`): compute the new boundary
by advancing `beginning` by `size` rounded up to block granularity; if the
rounding or addition fails, or the boundary would exceed `end`, return "no
split possible" (`none`), leaving the range unchanged; otherwise return the
carved prefix `[beginning, boundary)` together with the shrunken remainder
`[boundary, end)` that replaces `self`. -/
def ErasableRange.take_at_least (self : ErasableRange) (size : Nat) :
    Option (ErasableRange × ErasableRange) :=
  match self.beginning.advance_at_least size with
  | .error _ => none
  | .ok x_end =>
    if x_end.location ≤ self.end_.location then
      some (⟨self.beginning, x_end⟩, ⟨x_end, self.end_⟩)
    else
      none

/-- `FlashAlign::erasable_block_mask`: `(self.erasable_block_size() as u32) - 1`,
parameterized by the block size the trait instance reports. -/
def FlashAlign.erasable_block_mask (erasable_block_size : Nat) : Nat :=
  erasable_block_size % U32 - 1

/-- `FlashAlign::is_aligned`: `(location & mask) == 0`. -/
def FlashAlign.is_aligned (erasable_block_size location : Nat) : Bool :=
  location &&& FlashAlign.erasable_block_mask erasable_block_size == 0

/-- `FlashAlign::erasable_location`: `is_aligned(location).then_some(...)`. -/
def FlashAlign.erasable_location (erasable_block_size location : Nat) :
    Option ErasableLocation :=
  if FlashAlign.is_aligned erasable_block_size location then
    some ⟨location, erasable_block_size⟩
  else
    none

/-- `block.rs`: the closed set of legal erase-block sizes. -/
inductive BlockSize where
  | B4K | B8K | B12K | B16K | B20K | B24K | B28K | B32K
  | B36K | B40K | B44K | B48K | B52K | B56K | B60K | B64K
deriving DecidableEq, Repr

/-- `KIB` from `block.rs`. -/
def KIB : Nat := 1024

/-- The `usize` discriminant of each `Size` variant (`s as usize`,
`usize::from`). -/
def BlockSize.toNat : BlockSize → Nat
  | .B4K => 4 * KIB
  | .B8K => 8 * KIB
  | .B12K => 12 * KIB
  | .B16K => 16 * KIB
  | .B20K => 20 * KIB
  | .B24K => 24 * KIB
  | .B28K => 28 * KIB
  | .B32K => 32 * KIB
  | .B36K => 36 * KIB
  | .B40K => 40 * KIB
  | .B44K => 44 * KIB
  | .B48K => 48 * KIB
  | .B52K => 52 * KIB
  | .B56K => 56 * KIB
  | .B60K => 60 * KIB
  | .B64K => 64 * KIB

/-- `Size::align_up`: `n.checked_next_multiple_of(self as usize)` on `usize`
(`none` on a zero divisor or on overflow past `usize`). -/
def BlockSize.align_up (self : BlockSize) (n : Nat) : Option Nat :=
  if self.toNat = 0 then none
  else
    let m := (n + self.toNat - 1) / self.toNat * self.toNat
    if m < USIZE then some m else none

/-- `Size::is_aligned`: `matches!(self.align_up(n), Some(nn) if nn == n)`. -/
def BlockSize.is_aligned (self : BlockSize) (n : Nat) : Bool :=
  match self.align_up n with
  | some nn => nn == n
  | none => false

/-- `Size::try_from_block_size`: the descriptor-code table. -/
def BlockSize.try_from_block_size (block_size : Nat) : Option BlockSize :=
  match block_size with
  | 0 => some .B64K
  | 1 => some .B4K
  | 2 => some .B8K
  | 3 => some .B12K
  | 4 => some .B16K
  | 5 => some .B20K
  | 6 => some .B24K
  | 7 => some .B28K
  | 8 => some .B32K
  | 9 => some .B36K
  | 10 => some .B40K
  | 11 => some .B44K
  | 12 => some .B48K
  | 13 => some .B52K
  | 14 => some .B56K
  | 15 => some .B60K
  | _ => none

/-- `ArenaFlashAllocator` from `allocators.rs`: the hidden reserved range and
the two free ranges (`free_ranges[0]`, `free_ranges[1]`). -/
structure ArenaFlashAllocator where
  efh_range : ErasableRange
  free0 : ErasableRange
  free1 : ErasableRange
deriving DecidableEq, Repr

/-- `ArenaFlashAllocator::new`.  The two `assert!`s (arena starts at 0; the
first carve ends exactly at `efh_beginning`) are modelled as the outer `none`;
`some (.error .Size)` is the recoverable `Err(Error::Size)` return and
`some (.ok _)` the successful construction. -/
def ArenaFlashAllocator.new (efh_beginning : Nat) (efh_size : Nat)
    (arena : ErasableRange) : Option (Except Error ArenaFlashAllocator) :=
  if arena.beginning.location = 0 then
    let a_size := efh_beginning
    match arena.take_at_least a_size with
    | none => some (.error .Size)
    | some (a, arena1) =>
      if a.end_.location = a_size then
        match arena1.take_at_least efh_size with
        | none => some (.error .Size)
        | some (efh, arena2) => some (.ok ⟨efh, a, arena2⟩)
      else
        none
  else
    none

/-- `ArenaFlashAllocator::take_at_least`: first-fit over
`free_ranges[0]` then `free_ranges[1]`; returns the carved range (if any)
together with the updated allocator (the Rust method mutates `self`). -/
def ArenaFlashAllocator.take_at_least (self : ArenaFlashAllocator)
    (size : Nat) : Option ErasableRange × ArenaFlashAllocator :=
  match self.free0.take_at_least size with
  | some (r, f0) => (some r, { self with free0 := f0 })
  | none =>
    match self.free1.take_at_least size with
    | some (r, f1) => (some r, { self with free1 := f1 })
    | none => (none, self)

/-- `ArenaFlashAllocator::max_contiguous_capacity`: the fold of the Rust
`for` loop over the two free ranges. -/
def ArenaFlashAllocator.max_contiguous_capacity
    (self : ArenaFlashAllocator) : Nat :=
  let max_capacity := 0
  let max_capacity :=
    if self.free0.capacity > max_capacity then self.free0.capacity
    else max_capacity
  let max_capacity :=
    if self.free1.capacity > max_capacity then self.free1.capacity
    else max_capacity
  max_capacity

/-- A sequence of `take_at_least` calls on an allocator: returns the list of
all ranges handed out (in order) and the final allocator state. -/
def ArenaFlashAllocator.runTakes (self : ArenaFlashAllocator) :
    List Nat → List ErasableRange × ArenaFlashAllocator
  | [] => ([], self)
  | n :: ns =>
    let step := self.take_at_least n
    let rest := step.2.runTakes ns
    (step.1.toList ++ rest.1, rest.2)

/-- `slice::chunks(n)`: successive `n`-sized chunks, the last possibly short.
Rust aborts on `n = 0`; that case is mapped to `[]` and excluded by the
claims, which all have a positive block size. -/
def chunks {α : Type} (n : Nat) (l : List α) : List (List α) :=
  match n, l with
  | _, [] => []
  | 0, _ :: _ => []
  | n + 1, x :: xs =>
    (x :: xs).take (n + 1) :: chunks (n + 1) ((x :: xs).drop (n + 1))
termination_by l.length
decreasing_by
  simp only [List.length_drop, List.length_cons]
  omega

/-- The loop body of `FlashWrite::erase_and_write_blocks`, iterating over the
already-chunked buffer.  `f` is the trait method `erase_and_write_block` of
the backing store (abstract here); the returned list is the trace of
`(location, chunk)` calls made to `f`, in order, so that the claim about which
calls happen is statable; the `Except` is the value the Rust function
returns.  A short chunk triggers the `break`; a failing `f` or a failing
`advance` propagates through `?`. -/
def erase_and_write_blocks_go {α : Type}
    (f : ErasableLocation → List α → Except Error Unit)
    (erasable_block_size : Nat) :
    ErasableLocation → List (List α) →
      List (ErasableLocation × List α) × Except Error Unit
  | _, [] => ([], .ok ())
  | location, chunk :: rest =>
    match f location chunk with
    | .error e => ([(location, chunk)], .error e)
    | .ok _ =>
      if chunk.length ≠ erasable_block_size then
        ([(location, chunk)], .ok ())
      else
        match location.advance erasable_block_size with
        | .error e => ([(location, chunk)], .error e)
        | .ok location2 =>
          let rest2 := erase_and_write_blocks_go f erasable_block_size
            location2 rest
          ((location, chunk) :: rest2.1, rest2.2)

/-- `FlashWrite::erase_and_write_blocks`: chunk `buf` by the erase-block size
and run the loop. -/
def erase_and_write_blocks {α : Type}
    (f : ErasableLocation → List α → Except Error Unit)
    (erasable_block_size : Nat) (location : ErasableLocation)
    (buf : List α) : List (ErasableLocation × List α) × Except Error Unit :=
  erase_and_write_blocks_go f erasable_block_size location
    (chunks erasable_block_size buf)

/-- The expected call locations of a multi-block write: `n` block starts,
beginning at `loc0` and advancing by one erase-block size `bs` each time. -/
def blockLocs (loc0 bs : Nat) : Nat → List Nat
  | 0 => []
  | n + 1 => loc0 :: blockLocs (loc0 + bs) bs n

/-- Arithmetic round-up to a multiple of `b` (the quantity the bit-twiddling
in `advance_at_least` computes when the block size is a power of two). -/
def roundUp (b n : Nat) : Nat := (n + b - 1) / b * b

/-- Two half-open ranges share no address. -/
def RangeDisjoint (a b : ErasableRange) : Prop :=
  a.end_.location ≤ b.beginning.location ∨
    b.end_.location ≤ a.beginning.location

/-- A range does not intersect the half-open region `[lo, hi)`. -/
def RangeAvoids (r : ErasableRange) (lo hi : Nat) : Prop :=
  r.end_.location ≤ lo ∨ hi ≤ r.beginning.location

/-- Both free pools of an allocator avoid `[lo, hi)`: the low pool ends at or
before `lo` and the high pool begins at or after `hi`. -/
def PoolsAvoid (lo hi : Nat) (s : ArenaFlashAllocator) : Prop :=
  s.free0.end_.location ≤ lo ∧ hi ≤ s.free1.beginning.location

/-- The low free pool lies entirely left of the high free pool. -/
def Separated (s : ArenaFlashAllocator) : Prop :=
  s.free0.end_.location ≤ s.free1.beginning.location

/-- `r` lies inside the span of `outer`. -/
def WithinSpan (outer r : ErasableRange) : Prop :=
  outer.beginning.location ≤ r.beginning.location ∧
    r.end_.location ≤ outer.end_.location

/-- `r` lies inside one of the two free pools of `s`. -/
def InSpans (s : ArenaFlashAllocator) (r : ErasableRange) : Prop :=
  WithinSpan s.free0 r ∨ WithinSpan s.free1 r

/-- Both free pools carry block size `2 ^ k` and begin at `2 ^ k`-aligned
addresses. -/
def AlignedPools (k : Nat) (s : ArenaFlashAllocator) : Prop :=
  s.free0.beginning.erasable_block_size = 2 ^ k ∧
    s.free0.beginning.location % 2 ^ k = 0 ∧
    s.free1.beginning.erasable_block_size = 2 ^ k ∧
    s.free1.beginning.location % 2 ^ k = 0

/-! Arithmetic helper lemmas about `roundUp`. -/

theorem le_roundUp (b n : Nat) (hb : 0 < b) : n ≤ roundUp b n := by
  unfold roundUp
  have h := Nat.div_add_mod (n + b - 1) b
  have h2 : (n + b - 1) % b < b := Nat.mod_lt _ hb
  rw [Nat.mul_comm]
  generalize hm : b * ((n + b - 1) / b) = m at h ⊢
  omega

theorem roundUp_dvd (b n : Nat) : b ∣ roundUp b n := by
  unfold roundUp
  exact Dvd.intro_left _ rfl

theorem eq_roundUp (b n m : Nat) (hb : 0 < b) (h1 : n ≤ m) (h2 : m < n + b)
    (h3 : b ∣ m) : m = roundUp b n := by
  obtain ⟨q, rfl⟩ := h3
  unfold roundUp
  have hgoal : (n + b - 1) / b = q := by
    have hle : q ≤ (n + b - 1) / b := by
      rw [Nat.le_div_iff_mul_le hb]
      have : q * b ≤ n + b - 1 := by
        rw [Nat.mul_comm]
        omega
      exact this
    have hlt : (n + b - 1) / b < q + 1 := by
      rw [Nat.div_lt_iff_lt_mul hb]
      have hbq : n ≤ b * q := h1
      generalize hm : b * q = m at hbq ⊢
      rw [Nat.add_mul, Nat.one_mul, Nat.mul_comm q b, hm]
      omega
    omega
  rw [hgoal, Nat.mul_comm]

theorem roundUp_eq_self (b n : Nat) (hb : 0 < b) (h : b ∣ n) :
    roundUp b n = n :=
  (eq_roundUp b n n hb (Nat.le_refl n) (by omega) h).symm

theorem roundUp_le (b n m : Nat) (hb : 0 < b) (h1 : n ≤ m) (h2 : b ∣ m) :
    roundUp b n ≤ m := by
  obtain ⟨c, rfl⟩ := h2
  unfold roundUp
  have hlt : (n + b - 1) / b < c + 1 := by
    rw [Nat.div_lt_iff_lt_mul hb]
    have hbc : n ≤ b * c := h1
    generalize hm : b * c = m at hbc ⊢
    rw [Nat.add_mul, Nat.one_mul, Nat.mul_comm c b, hm]
    omega
  have hle : (n + b - 1) / b ≤ c := by omega
  calc (n + b - 1) / b * b ≤ c * b := Nat.mul_le_mul_right b hle
    _ = b * c := Nat.mul_comm c b

theorem roundUp_lt_add (b n : Nat) (hb : 0 < b) : roundUp b n < n + b := by
  have h : roundUp b n ≤ n + b - 1 := Nat.div_mul_le_self (n + b - 1) b
  omega

/-! Bridging the wrapping-subtraction-and-mask computation to `roundUp`. -/

theorem wrapping_diff_eq (k amount : Nat) (hk : k ≤ 64) (hs : amount < USIZE) :
    amount + ((USIZE - amount % USIZE) % USIZE &&& (2 ^ k - 1)) =
      roundUp (2 ^ k) amount := by
  have hb : 0 < 2 ^ k := Nat.two_pow_pos k
  have hmod : amount % USIZE = amount := Nat.mod_eq_of_lt hs
  rw [hmod, Nat.and_pow_two_sub_one_eq_mod]
  set d := (USIZE - amount) % USIZE % 2 ^ k with hd
  have hdlt : d < 2 ^ k := Nat.mod_lt _ hb
  have hdvd : 2 ^ k ∣ USIZE := by
    have h : (2 : Nat) ^ k ∣ 2 ^ 64 := Nat.pow_dvd_pow 2 hk
    simpa [USIZE] using h
  have hcong : (amount + d) % 2 ^ k = 0 := by
    have h1 : (USIZE - amount) % USIZE % 2 ^ k ≡
        (USIZE - amount) % USIZE [MOD 2 ^ k] := Nat.mod_modEq _ _
    have h2 : (USIZE - amount) % USIZE ≡ (USIZE - amount) [MOD 2 ^ k] :=
      Nat.ModEq.of_dvd hdvd (Nat.mod_modEq _ _)
    have h3 : amount + d ≡ amount + (USIZE - amount) [MOD 2 ^ k] :=
      Nat.ModEq.add_left amount (h1.trans h2)
    have h4 : amount + (USIZE - amount) = USIZE := by
      have h : amount ≤ USIZE := Nat.le_of_lt hs
      omega
    have h5 : USIZE % 2 ^ k = 0 := by
      obtain ⟨c, hc⟩ := hdvd
      rw [hc]
      exact Nat.mul_mod_right _ _
    calc (amount + d) % 2 ^ k
        = (amount + (USIZE - amount)) % 2 ^ k := h3
      _ = USIZE % 2 ^ k := by rw [h4]
      _ = 0 := h5
  exact eq_roundUp (2 ^ k) amount (amount + d) hb (Nat.le_add_right _ _)
    (by omega) (Nat.dvd_of_mod_eq_zero hcong)

/-! Equation lemmas for the location arithmetic under a power-of-two block
size. -/

theorem erasable_block_mask_eq (self : ErasableLocation) (k : Nat)
    (hbs : self.erasable_block_size = 2 ^ k) (hk : 2 ^ k < U32) :
    self.erasable_block_mask = 2 ^ k - 1 := by
  unfold ErasableLocation.erasable_block_mask
  rw [hbs, Nat.mod_eq_of_lt hk]

theorem advance_eq (self : ErasableLocation) (k : Nat)
    (hbs : self.erasable_block_size = 2 ^ k) (hk : 2 ^ k < U32)
    (amount : Nat) :
    self.advance amount =
      if amount % 2 ^ k = 0 then
        if self.location + amount < USIZE then
          if self.location + amount < U32 then
            .ok ⟨self.location + amount, self.erasable_block_size⟩
          else
            .error .Alignment
        else
          .error .Alignment
      else
        .error .Alignment := by
  unfold ErasableLocation.advance
  rw [erasable_block_mask_eq self k hbs hk, Nat.and_pow_two_sub_one_eq_mod]
  by_cases h : amount % 2 ^ k = 0 <;> simp [h]

theorem advance_at_least_eq (self : ErasableLocation) (k : Nat)
    (hbs : self.erasable_block_size = 2 ^ k) (hk : 2 ^ k < U32)
    (amount : Nat) (hs : amount < USIZE) :
    self.advance_at_least amount =
      if roundUp (2 ^ k) amount < USIZE ∧
          self.location + roundUp (2 ^ k) amount < U32 then
        .ok ⟨self.location + roundUp (2 ^ k) amount,
          self.erasable_block_size⟩
      else
        .error .Alignment := by
  have hk64 : k ≤ 64 := by
    have h1 : k < 32 := by
      have h2 : (2 : Nat) ^ k < 2 ^ 32 := by
        have hU : U32 = 2 ^ 32 := rfl
        omega
      exact (Nat.pow_lt_pow_iff_right (by omega)).mp h2
    omega
  have hdiff := wrapping_diff_eq k amount hk64 hs
  unfold ErasableLocation.advance_at_least
  rw [erasable_block_mask_eq self k hbs hk]
  simp only [hdiff]
  rw [advance_eq self k hbs hk]
  have hmod : roundUp (2 ^ k) amount % 2 ^ k = 0 :=
    Nat.mod_eq_zero_of_dvd (roundUp_dvd _ _)
  by_cases h1 : roundUp (2 ^ k) amount < USIZE
  · by_cases h2 : self.location + roundUp (2 ^ k) amount < U32
    · have h3 : self.location + roundUp (2 ^ k) amount < USIZE := by
        have : U32 < USIZE := by norm_num [U32, USIZE]
        omega
      simp [h1, h2, h3, hmod]
    · simp [h1, h2, hmod]
  · simp [h1, hmod]

/-! Inversion lemmas (no power-of-two assumption needed). -/

theorem advance_ok_inv (self : ErasableLocation) (amount : Nat)
    (l : ErasableLocation) (h : self.advance amount = .ok l) :
    l.location = self.location + amount ∧
      l.erasable_block_size = self.erasable_block_size ∧
      l.location < U32 := by
  unfold ErasableLocation.advance at h
  split_ifs at h with h1 h2 h3
  · cases h
    exact ⟨rfl, rfl, h3⟩

theorem advance_at_least_ok_inv (self : ErasableLocation) (amount : Nat)
    (l : ErasableLocation) (h : self.advance_at_least amount = .ok l) :
    ∃ d, l.location = self.location + (amount + d) ∧
      l.erasable_block_size = self.erasable_block_size ∧
      l.location < U32 := by
  unfold ErasableLocation.advance_at_least at h
  dsimp only at h
  split_ifs at h with h1
  exact ⟨_, advance_ok_inv _ _ _ h⟩

theorem take_ok_inv (self : ErasableRange) (n : Nat) (x self2 : ErasableRange)
    (h : self.take_at_least n = some (x, self2)) :
    x.beginning = self.beginning ∧ self2.end_ = self.end_ ∧
      x.end_ = self2.beginning ∧
      x.beginning.location ≤ x.end_.location ∧
      x.end_.location ≤ self.end_.location ∧
      n ≤ x.end_.location - x.beginning.location ∧
      x.end_.erasable_block_size = self.beginning.erasable_block_size := by
  unfold ErasableRange.take_at_least at h
  cases hadv : self.beginning.advance_at_least n with
  | error e => rw [hadv] at h; cases h
  | ok x_end =>
    rw [hadv] at h
    dsimp only at h
    split_ifs at h with h1
    cases h
    obtain ⟨d, hloc, hbsz, hlt⟩ := advance_at_least_ok_inv _ _ _ hadv
    refine ⟨rfl, rfl, rfl, ?_, ?_, ?_, hbsz⟩ <;> dsimp only <;> omega

theorem take_none_of_capacity_lt (self : ErasableRange) (n : Nat)
    (h : self.capacity < n) : self.take_at_least n = none := by
  unfold ErasableRange.take_at_least
  cases hadv : self.beginning.advance_at_least n with
  | error e => rfl
  | ok x_end =>
    obtain ⟨d, hloc, hbsz, hlt⟩ := advance_at_least_ok_inv _ _ _ hadv
    have hcap : self.capacity = self.end_.location - self.beginning.location :=
      rfl
    have hgt : ¬ x_end.location ≤ self.end_.location := by omega
    simp [hgt]

theorem take_at_least_eq (self : ErasableRange) (k : Nat)
    (hbs : self.beginning.erasable_block_size = 2 ^ k) (hk : 2 ^ k < U32)
    (size : Nat) (hs : size < USIZE) (hend : self.end_.location < U32) :
    self.take_at_least size =
      if roundUp (2 ^ k) size < USIZE ∧
          self.beginning.location + roundUp (2 ^ k) size ≤
            self.end_.location then
        some (⟨self.beginning,
                ⟨self.beginning.location + roundUp (2 ^ k) size,
                  self.beginning.erasable_block_size⟩⟩,
              ⟨⟨self.beginning.location + roundUp (2 ^ k) size,
                  self.beginning.erasable_block_size⟩, self.end_⟩) 
      else
        none := by
  unfold ErasableRange.take_at_least
  rw [advance_at_least_eq self.beginning k hbs hk size hs]
  by_cases h1 : roundUp (2 ^ k) size < USIZE
  · by_cases h2 : self.beginning.location + roundUp (2 ^ k) size ≤
        self.end_.location
    · have h3 : self.beginning.location + roundUp (2 ^ k) size < U32 := by
        omega
      simp [h1, h2, h3]
    · by_cases h3 : self.beginning.location + roundUp (2 ^ k) size < U32 <;>
        simp [h1, h2, h3]
  · simp [h1]

theorem advance_ok_mod (self : ErasableLocation) (amount : Nat)
    (l : ErasableLocation) (k : Nat)
    (hbs : self.erasable_block_size = 2 ^ k) (hk : 2 ^ k < U32)
    (h : self.advance amount = .ok l) :
    l.location % 2 ^ k = self.location % 2 ^ k := by
  rw [advance_eq self k hbs hk] at h
  split_ifs at h with g1 g2 g3
  cases h
  simp [Nat.add_mod, g1]

theorem advance_at_least_ok_mod (self : ErasableLocation) (amount : Nat)
    (l : ErasableLocation) (k : Nat)
    (hbs : self.erasable_block_size = 2 ^ k) (hk : 2 ^ k < U32)
    (h : self.advance_at_least amount = .ok l) :
    l.location % 2 ^ k = self.location % 2 ^ k := by
  unfold ErasableLocation.advance_at_least at h
  dsimp only at h
  split_ifs at h with h1
  exact advance_ok_mod self _ l k hbs hk h

theorem take_ok_mod (self : ErasableRange) (n : Nat) (x self2 : ErasableRange)
    (k : Nat) (hbs : self.beginning.erasable_block_size = 2 ^ k)
    (hk : 2 ^ k < U32) (h : self.take_at_least n = some (x, self2)) :
    x.end_.location % 2 ^ k = self.beginning.location % 2 ^ k := by
  unfold ErasableRange.take_at_least at h
  cases hadv : self.beginning.advance_at_least n with
  | error e => rw [hadv] at h; cases h
  | ok x_end =>
    rw [hadv] at h
    dsimp only at h
    split_ifs at h with h1
    cases h
    exact advance_at_least_ok_mod self.beginning n x_end k hbs hk hadv

/-! Inversion lemmas for the allocator-level `take_at_least`. -/

theorem alloc_take_some_inv (s : ArenaFlashAllocator) (n : Nat)
    (r : ErasableRange) (s' : ArenaFlashAllocator)
    (h : s.take_at_least n = (some r, s')) :
    (s.free0.take_at_least n = some (r, s'.free0) ∧ s'.free1 = s.free1) ∨
      (s.free0.take_at_least n = none ∧
        s.free1.take_at_least n = some (r, s'.free1) ∧ s'.free0 = s.free0) := by
  unfold ArenaFlashAllocator.take_at_least at h
  rcases h0 : s.free0.take_at_least n with _ | ⟨r0, f0⟩
  · rw [h0] at h
    dsimp only at h
    rcases h1 : s.free1.take_at_least n with _ | ⟨r1, f1⟩
    · rw [h1] at h
      dsimp only at h
      simp at h
    · rw [h1] at h
      dsimp only at h
      simp only [Prod.mk.injEq, Option.some.injEq] at h
      obtain ⟨rfl, hX⟩ := h
      subst hX
      exact Or.inr ⟨rfl, rfl, rfl⟩
  · rw [h0] at h
    dsimp only at h
    simp only [Prod.mk.injEq, Option.some.injEq] at h
    obtain ⟨rfl, hX⟩ := h
    subst hX
    exact Or.inl ⟨rfl, rfl⟩

theorem alloc_take_none_inv (s : ArenaFlashAllocator) (n : Nat)
    (s' : ArenaFlashAllocator) (h : s.take_at_least n = (none, s')) :
    s' = s ∧ s.free0.take_at_least n = none ∧
      s.free1.take_at_least n = none := by
  unfold ArenaFlashAllocator.take_at_least at h
  rcases h0 : s.free0.take_at_least n with _ | ⟨r0, f0⟩
  · rw [h0] at h
    dsimp only at h
    rcases h1 : s.free1.take_at_least n with _ | ⟨r1, f1⟩
    · rw [h1] at h
      dsimp only at h
      simp only [Prod.mk.injEq] at h
      exact ⟨h.2.symm, rfl, rfl⟩
    · rw [h1] at h
      dsimp only at h
      simp at h
  · rw [h0] at h
    dsimp only at h
    simp at h

/-- Everything a successful allocator-level `take_at_least` guarantees about
the returned range and the successor state, by cases on which free pool
served the request. -/
theorem alloc_take_step (s : ArenaFlashAllocator) (n : Nat)
    (r : ErasableRange) (s' : ArenaFlashAllocator)
    (h : s.take_at_least n = (some r, s')) :
    (r.beginning = s.free0.beginning ∧ r.end_ = s'.free0.beginning ∧
      s'.free0.end_ = s.free0.end_ ∧ s'.free1 = s.free1 ∧
      r.beginning.location ≤ r.end_.location ∧
      r.end_.location ≤ s.free0.end_.location ∧
      n ≤ r.end_.location - r.beginning.location) ∨
    (r.beginning = s.free1.beginning ∧ r.end_ = s'.free1.beginning ∧
      s'.free1.end_ = s.free1.end_ ∧ s'.free0 = s.free0 ∧
      r.beginning.location ≤ r.end_.location ∧
      r.end_.location ≤ s.free1.end_.location ∧
      n ≤ r.end_.location - r.beginning.location) := by
  rcases alloc_take_some_inv s n r s' h with ⟨h0, hf1⟩ | ⟨h0, h1, hf0⟩
  · obtain ⟨hb, he, hxe, hle1, hle2, hn, hbsz⟩ := take_ok_inv _ _ _ _ h0
    exact Or.inl ⟨hb, hxe, he, hf1, hle1, hle2, hn⟩
  · obtain ⟨hb, he, hxe, hle1, hle2, hn, hbsz⟩ := take_ok_inv _ _ _ _ h1
    exact Or.inr ⟨hb, hxe, he, hf0, hle1, hle2, hn⟩

/-- Along any sequence of allocations, if both free pools avoid `[lo, hi)`
then every range handed out avoids `[lo, hi)`, and the pools still avoid it
afterwards. -/
theorem runTakes_avoid (lo hi : Nat) (seq : List Nat) :
    ∀ s : ArenaFlashAllocator, PoolsAvoid lo hi s →
      (∀ r ∈ (s.runTakes seq).1, RangeAvoids r lo hi) ∧
        PoolsAvoid lo hi (s.runTakes seq).2 := by
  induction seq with
  | nil =>
    intro s hs
    refine ⟨?_, hs⟩
    intro r hr
    simp [ArenaFlashAllocator.runTakes] at hr
  | cons n ns ih =>
    intro s hs
    rcases hstep : s.take_at_least n with ⟨r?, s1⟩
    have hrun : s.runTakes (n :: ns) =
        (r?.toList ++ (s1.runTakes ns).1, (s1.runTakes ns).2) := by
      simp [ArenaFlashAllocator.runTakes, hstep]
    rcases r? with _ | r
    · obtain ⟨heq, -, -⟩ := alloc_take_none_inv s n s1 hstep
      obtain ⟨hmem, hpool⟩ := ih s1 (by rw [heq]; exact hs)
      rw [hrun]
      exact ⟨by simpa using hmem, hpool⟩
    · have hs1 : PoolsAvoid lo hi s1 ∧ RangeAvoids r lo hi := by
        obtain ⟨hs0, hs2⟩ := hs
        rcases alloc_take_step s n r s1 hstep with
          ⟨hb, he, hxe, hf1, hle1, hle2, hn⟩ | ⟨hb, he, hxe, hf0, hle1, hle2, hn⟩
        · constructor
          · exact ⟨by rw [hxe]; exact hs0, by rw [hf1]; exact hs2⟩
          · exact Or.inl (by omega)
        · constructor
          · refine ⟨by rw [hf0]; exact hs0, ?_⟩
            rw [← he]
            rw [hb] at hle1
            omega
          · exact Or.inr (by rw [hb]; exact hs2)
      obtain ⟨hmem, hpool⟩ := ih s1 hs1.1
      rw [hrun]
      refine ⟨?_, hpool⟩
      intro x hx
      simp only [Option.toList_some, List.cons_append, List.mem_cons] at hx
      rcases hx with rfl | hx
      · exact hs1.2
      · exact hmem x (by simpa using hx)

/-- Along any sequence of allocations from a state whose low pool lies left
of its high pool, all ranges handed out are pairwise disjoint, the pools stay
separated, and every range handed out lies inside one of the original free
pools. -/
theorem runTakes_disjoint (seq : List Nat) :
    ∀ s : ArenaFlashAllocator, Separated s →
      List.Pairwise RangeDisjoint (s.runTakes seq).1 ∧
        Separated (s.runTakes seq).2 ∧
        ∀ r ∈ (s.runTakes seq).1, InSpans s r := by
  induction seq with
  | nil =>
    intro s hs
    refine ⟨List.Pairwise.nil, hs, ?_⟩
    intro r hr
    simp [ArenaFlashAllocator.runTakes] at hr
  | cons n ns ih =>
    intro s hs
    rcases hstep : s.take_at_least n with ⟨r?, s1⟩
    have hrun : s.runTakes (n :: ns) =
        (r?.toList ++ (s1.runTakes ns).1, (s1.runTakes ns).2) := by
      simp [ArenaFlashAllocator.runTakes, hstep]
    rcases r? with _ | r
    · obtain ⟨heq, -, -⟩ := alloc_take_none_inv s n s1 hstep
      subst heq
      obtain ⟨hpw, hsep, hins⟩ := ih s1 hs
      rw [hrun]
      refine ⟨by simpa using hpw, hsep, ?_⟩
      intro x hx
      exact hins x (by simpa using hx)
    · have hsep0 : s.free0.end_.location ≤ s.free1.beginning.location := hs
      rcases alloc_take_step s n r s1 hstep with
        ⟨hb, he, hxe, hf1, hle1, hle2, hn⟩ | ⟨hb, he, hxe, hf0, hle1, hle2, hn⟩
      · -- served from the low pool
        have hbl : r.beginning.location = s.free0.beginning.location :=
          congrArg ErasableLocation.location hb
        have hel : r.end_.location = s1.free0.beginning.location :=
          congrArg ErasableLocation.location he
        have hxel : s1.free0.end_.location = s.free0.end_.location :=
          congrArg ErasableLocation.location hxe
        have hf1b : s1.free1.beginning.location = s.free1.beginning.location :=
          congrArg (fun t => ErasableRange.beginning t |>.location) hf1
        have hf1e : s1.free1.end_.location = s.free1.end_.location :=
          congrArg (fun t => ErasableRange.end_ t |>.location) hf1
        have hsep1 : Separated s1 := by
          unfold Separated
          omega
        have hmono : ∀ x, InSpans s1 x → InSpans s x := by
          intro x hx
          rcases hx with ⟨hx1, hx2⟩ | ⟨hx1, hx2⟩
          · exact Or.inl ⟨by omega, by omega⟩
          · exact Or.inr ⟨by omega, by omega⟩
        have hdisj : ∀ x, InSpans s1 x → RangeDisjoint r x := by
          intro x hx
          rcases hx with ⟨hx1, hx2⟩ | ⟨hx1, hx2⟩
          · exact Or.inl (by omega)
          · exact Or.inl (by omega)
        have hrins : InSpans s r := Or.inl ⟨by omega, by omega⟩
        obtain ⟨hpw, hsep2, hins⟩ := ih s1 hsep1
        rw [hrun]
        refine ⟨?_, hsep2, ?_⟩
        · simp only [Option.toList_some, List.cons_append, List.nil_append]
          exact List.Pairwise.cons (fun x hx => hdisj x (hins x hx)) hpw
        · intro x hx
          simp only [Option.toList_some, List.cons_append, List.nil_append,
            List.mem_cons] at hx
          rcases hx with rfl | hx
          · exact hrins
          · exact hmono x (hins x hx)
      · -- served from the high pool
        have hbl : r.beginning.location = s.free1.beginning.location :=
          congrArg ErasableLocation.location hb
        have hel : r.end_.location = s1.free1.beginning.location :=
          congrArg ErasableLocation.location he
        have hxel : s1.free1.end_.location = s.free1.end_.location :=
          congrArg ErasableLocation.location hxe
        have hf0b : s1.free0.beginning.location = s.free0.beginning.location :=
          congrArg (fun t => ErasableRange.beginning t |>.location) hf0
        have hf0e : s1.free0.end_.location = s.free0.end_.location :=
          congrArg (fun t => ErasableRange.end_ t |>.location) hf0
        have hsep1 : Separated s1 := by
          unfold Separated
          omega
        have hmono : ∀ x, InSpans s1 x → InSpans s x := by
          intro x hx
          rcases hx with ⟨hx1, hx2⟩ | ⟨hx1, hx2⟩
          · exact Or.inl ⟨by omega, by omega⟩
          · exact Or.inr ⟨by omega, by omega⟩
        have hdisj : ∀ x, InSpans s1 x → RangeDisjoint r x := by
          intro x hx
          rcases hx with ⟨hx1, hx2⟩ | ⟨hx1, hx2⟩
          · exact Or.inr (by omega)
          · exact Or.inl (by omega)
        have hrins : InSpans s r := Or.inr ⟨by omega, by omega⟩
        obtain ⟨hpw, hsep2, hins⟩ := ih s1 hsep1
        rw [hrun]
        refine ⟨?_, hsep2, ?_⟩
        · simp only [Option.toList_some, List.cons_append, List.nil_append]
          exact List.Pairwise.cons (fun x hx => hdisj x (hins x hx)) hpw
        · intro x hx
          simp only [Option.toList_some, List.cons_append, List.nil_append,
            List.mem_cons] at hx
          rcases hx with rfl | hx
          · exact hrins
          · exact hmono x (hins x hx)

/-- Successful construction: on a whole medium `[0, E)` with block size
`2 ^ k`, a block-aligned reserved offset `eb` and a reserved size `es` with
`eb + es ≤ E`, `ArenaFlashAllocator::new` returns the allocator whose free
pools are `[0, eb)` and `[eb + roundUp es, E)` and whose hidden reserved
range is `[eb, eb + roundUp es)`. -/
theorem new_ok_of_fits (k : Nat) (hk : 2 ^ k < U32) (E eb es : Nat)
    (hE : E < U32) (hEal : E % 2 ^ k = 0) (heb : eb % 2 ^ k = 0)
    (hes : es < USIZE) (hfit : eb + es ≤ E) :
    ArenaFlashAllocator.new eb es ⟨⟨0, 2 ^ k⟩, ⟨E, 2 ^ k⟩⟩ =
      some (.ok ⟨⟨⟨eb, 2 ^ k⟩, ⟨eb + roundUp (2 ^ k) es, 2 ^ k⟩⟩,
                 ⟨⟨0, 2 ^ k⟩, ⟨eb, 2 ^ k⟩⟩,
                 ⟨⟨eb + roundUp (2 ^ k) es, 2 ^ k⟩, ⟨E, 2 ^ k⟩⟩⟩) := by
  have hpos : 0 < 2 ^ k := Nat.two_pow_pos k
  have hUlt : U32 < USIZE := by norm_num [U32, USIZE]
  have hebU : eb < USIZE := by omega
  have hrueb : roundUp (2 ^ k) eb = eb :=
    roundUp_eq_self _ _ hpos (Nat.dvd_of_mod_eq_zero heb)
  have hdvdE : 2 ^ k ∣ E - eb :=
    Nat.dvd_sub' (Nat.dvd_of_mod_eq_zero hEal) (Nat.dvd_of_mod_eq_zero heb)
  have hrues : roundUp (2 ^ k) es ≤ E - eb :=
    roundUp_le _ _ _ hpos (by omega) hdvdE
  have harena :
      ErasableRange.take_at_least ⟨⟨0, 2 ^ k⟩, ⟨E, 2 ^ k⟩⟩ eb =
        some (⟨⟨0, 2 ^ k⟩, ⟨eb, 2 ^ k⟩⟩, ⟨⟨eb, 2 ^ k⟩, ⟨E, 2 ^ k⟩⟩) := by
    rw [take_at_least_eq _ k rfl hk eb hebU hE, hrueb,
      if_pos (by refine ⟨by omega, ?_⟩; dsimp only; omega)]
    dsimp only
    norm_num
  have harena2 :
      ErasableRange.take_at_least ⟨⟨eb, 2 ^ k⟩, ⟨E, 2 ^ k⟩⟩ es =
        some (⟨⟨eb, 2 ^ k⟩, ⟨eb + roundUp (2 ^ k) es, 2 ^ k⟩⟩,
              ⟨⟨eb + roundUp (2 ^ k) es, 2 ^ k⟩, ⟨E, 2 ^ k⟩⟩) := by
    rw [take_at_least_eq _ k rfl hk es hes hE,
      if_pos (by refine ⟨by omega, ?_⟩; dsimp only; omega)]
  unfold ArenaFlashAllocator.new
  simp only [harena, harena2]
  simp

/-- Any successfully constructed allocator has its low free pool entirely
left of its high free pool. -/
theorem new_ok_separated (eb es : Nat) (arena : ErasableRange)
    (alloc : ArenaFlashAllocator)
    (h : ArenaFlashAllocator.new eb es arena = some (.ok alloc)) :
    Separated alloc := by
  unfold ArenaFlashAllocator.new at h
  split_ifs at h with h0
  dsimp only at h
  rcases h1 : arena.take_at_least eb with _ | ⟨a, arena1⟩
  · rw [h1] at h
    simp at h
  · rw [h1] at h
    dsimp only at h
    split_ifs at h with h2
    rcases h3 : arena1.take_at_least es with _ | ⟨efh, arena2⟩
    · rw [h3] at h
      simp at h
    · rw [h3] at h
      dsimp only at h
      simp only [Option.some.injEq, Except.ok.injEq] at h
      subst h
      obtain ⟨-, -, hxe1, -, -, -, -⟩ := take_ok_inv _ _ _ _ h1
      obtain ⟨hb2, -, hxe2, hle2, -, -, -⟩ := take_ok_inv _ _ _ _ h3
      have e1 : a.end_.location = arena1.beginning.location :=
        congrArg ErasableLocation.location hxe1
      have e2 : efh.beginning.location = arena1.beginning.location :=
        congrArg ErasableLocation.location hb2
      have e3 : efh.end_.location = arena2.beginning.location :=
        congrArg ErasableLocation.location hxe2
      unfold Separated
      dsimp only
      omega

/-- C1: for every block-aligned reserved offset `eb` and reserved size `es`
with `eb + es` not exceeding the size `E` of the whole medium `[0, E)`
(erase-block size `2 ^ k`), `ArenaFlashAllocator::new` succeeds, and along
every subsequent sequence of `take_at_least` calls on that allocator no
returned range intersects the reserved region
`[eb, eb + roundUp (2 ^ k) es)`. -/
theorem c1_reserved_never_allocated (k : Nat) (hk : 2 ^ k < U32)
    (E eb es : Nat) (hE : E < U32) (hEal : E % 2 ^ k = 0)
    (heb : eb % 2 ^ k = 0) (hes : es < USIZE) (hfit : eb + es ≤ E) :
    ∃ alloc : ArenaFlashAllocator,
      ArenaFlashAllocator.new eb es ⟨⟨0, 2 ^ k⟩, ⟨E, 2 ^ k⟩⟩ =
        some (.ok alloc) ∧
      ∀ seq : List Nat, ∀ r ∈ (alloc.runTakes seq).1,
        RangeAvoids r eb (eb + roundUp (2 ^ k) es) := by
  refine ⟨_, new_ok_of_fits k hk E eb es hE hEal heb hes hfit, ?_⟩
  intro seq r hr
  have hpool : PoolsAvoid eb (eb + roundUp (2 ^ k) es)
      ⟨⟨⟨eb, 2 ^ k⟩, ⟨eb + roundUp (2 ^ k) es, 2 ^ k⟩⟩,
       ⟨⟨0, 2 ^ k⟩, ⟨eb, 2 ^ k⟩⟩,
       ⟨⟨eb + roundUp (2 ^ k) es, 2 ^ k⟩, ⟨E, 2 ^ k⟩⟩⟩ :=
    ⟨Nat.le_refl _, Nat.le_refl _⟩
  exact (runTakes_avoid eb (eb + roundUp (2 ^ k) es) seq _ hpool).1 r hr

theorem c1_reserved_never_allocated_witness :
    ∃ alloc : ArenaFlashAllocator,
      ArenaFlashAllocator.new 0x20000 0x200 ⟨⟨0, 2 ^ 2⟩, ⟨0x40000, 2 ^ 2⟩⟩ =
        some (.ok alloc) ∧
      ∀ seq : List Nat, ∀ r ∈ (alloc.runTakes seq).1,
        RangeAvoids r 0x20000 (0x20000 + roundUp (2 ^ 2) 0x200) :=
  c1_reserved_never_allocated 2 (by norm_num [U32]) 0x40000 0x20000 0x200
    (by norm_num [U32]) (by norm_num) (by norm_num)
    (by norm_num [USIZE]) (by norm_num)

/-- C2: for every constructed `ArenaFlashAllocator` (any arguments on which
`new` returned `Ok`) and every sequence of `take_at_least` calls on it, the
ranges returned across the whole sequence are pairwise disjoint. -/
theorem c2_allocations_pairwise_disjoint (eb es : Nat)
    (arena : ErasableRange) (alloc : ArenaFlashAllocator)
    (h : ArenaFlashAllocator.new eb es arena = some (.ok alloc))
    (seq : List Nat) :
    List.Pairwise RangeDisjoint (alloc.runTakes seq).1 :=
  (runTakes_disjoint seq alloc (new_ok_separated eb es arena alloc h)).1

theorem c2_allocations_pairwise_disjoint_witness :
    List.Pairwise RangeDisjoint
      ((ArenaFlashAllocator.mk
          ⟨⟨0x20000, 4⟩, ⟨0x20200, 4⟩⟩
          ⟨⟨0, 4⟩, ⟨0x20000, 4⟩⟩
          ⟨⟨0x20200, 4⟩, ⟨0x40000, 4⟩⟩).runTakes [42, 100]).1 :=
  c2_allocations_pairwise_disjoint 0x20000 0x200 ⟨⟨0, 4⟩, ⟨0x40000, 4⟩⟩
    _ rfl [42, 100]

/-- C4: from any allocator state whose free pools are `2 ^ k`-block-sized and
begin block-aligned (as every constructed allocator does), a successful
`take_at_least n` returns a range whose beginning and end addresses are both
aligned to the erase-block size and whose capacity is at least `n`; the
alignment invariant is preserved. -/
theorem c4_allocation_aligned_and_big_enough (k : Nat) (hk : 2 ^ k < U32)
    (s : ArenaFlashAllocator) (hs : AlignedPools k s) (n : Nat)
    (r : ErasableRange) (s' : ArenaFlashAllocator)
    (h : s.take_at_least n = (some r, s')) :
    r.beginning.location % 2 ^ k = 0 ∧ r.end_.location % 2 ^ k = 0 ∧
      n ≤ r.capacity ∧ AlignedPools k s' := by
  obtain ⟨hb0, ha0, hb1, ha1⟩ := hs
  have hcap : r.capacity = r.end_.location - r.beginning.location := rfl
  rcases alloc_take_some_inv s n r s' h with ⟨h0, hf1⟩ | ⟨h0, h1, hf0⟩
  · obtain ⟨hb, he, hxe, hle1, hle2, hn, hbsz⟩ := take_ok_inv _ _ _ _ h0
    have hmod := take_ok_mod _ _ _ _ k hb0 hk h0
    have hbl : r.beginning.location = s.free0.beginning.location :=
      congrArg ErasableLocation.location hb
    have hxl : r.end_.location = s'.free0.beginning.location :=
      congrArg ErasableLocation.location hxe
    have hra : r.beginning.location % 2 ^ k = 0 := by rw [hbl]; exact ha0
    have hrea : r.end_.location % 2 ^ k = 0 := by rw [hmod]; exact ha0
    refine ⟨hra, hrea, by omega, ?_, ?_, ?_, ?_⟩
    · rw [← hxe, hbsz]
      exact hb0
    · rw [← hxl]
      exact hrea
    · rw [hf1]
      exact hb1
    · rw [hf1]
      exact ha1
  · obtain ⟨hb, he, hxe, hle1, hle2, hn, hbsz⟩ := take_ok_inv _ _ _ _ h1
    have hmod := take_ok_mod _ _ _ _ k hb1 hk h1
    have hbl : r.beginning.location = s.free1.beginning.location :=
      congrArg ErasableLocation.location hb
    have hxl : r.end_.location = s'.free1.beginning.location :=
      congrArg ErasableLocation.location hxe
    have hra : r.beginning.location % 2 ^ k = 0 := by rw [hbl]; exact ha1
    have hrea : r.end_.location % 2 ^ k = 0 := by rw [hmod]; exact ha1
    refine ⟨hra, hrea, by omega, ?_, ?_, ?_, ?_⟩
    · rw [hf0]
      exact hb0
    · rw [hf0]
      exact ha0
    · rw [← hxe, hbsz]
      exact hb1
    · rw [← hxl]
      exact hrea

theorem c4_allocation_aligned_and_big_enough_witness :
    (ErasableRange.mk ⟨0, 4⟩ ⟨44, 4⟩).beginning.location % 2 ^ 2 = 0 ∧
      (ErasableRange.mk ⟨0, 4⟩ ⟨44, 4⟩).end_.location % 2 ^ 2 = 0 ∧
      42 ≤ (ErasableRange.mk ⟨0, 4⟩ ⟨44, 4⟩).capacity ∧
      AlignedPools 2
        (ArenaFlashAllocator.mk
          ⟨⟨0x20000, 4⟩, ⟨0x20200, 4⟩⟩
          ⟨⟨44, 4⟩, ⟨0x20000, 4⟩⟩
          ⟨⟨0x20200, 4⟩, ⟨0x40000, 4⟩⟩) :=
  c4_allocation_aligned_and_big_enough 2 (by norm_num [U32])
    (ArenaFlashAllocator.mk
      ⟨⟨0x20000, 4⟩, ⟨0x20200, 4⟩⟩
      ⟨⟨0, 4⟩, ⟨0x20000, 4⟩⟩
      ⟨⟨0x20200, 4⟩, ⟨0x40000, 4⟩⟩)
    (by refine ⟨rfl, ?_, rfl, ?_⟩ <;> norm_num) 42 _ _ rfl

/-- C3: the split primitive (`ErasableRange::take_at_least`, modelled from
the spec since only its callers appear in the sources) computes the new
boundary as `beginning` advanced by `size` rounded up to block granularity
(`roundUp`); when that boundary would exceed the range's end, or the rounding
or addition overflows, it returns the "no split possible" outcome `none`
rather than an error value or an abort (being pure, it leaves the range
unchanged in that case). -/
theorem c3_take_at_least_boundary (r : ErasableRange) (k : Nat)
    (hbs : r.beginning.erasable_block_size = 2 ^ k) (hk : 2 ^ k < U32)
    (size : Nat) (hs : size < USIZE) (hend : r.end_.location < U32) :
    (roundUp (2 ^ k) size < USIZE →
      r.beginning.location + roundUp (2 ^ k) size ≤ r.end_.location →
      r.take_at_least size =
        some (⟨r.beginning,
               ⟨r.beginning.location + roundUp (2 ^ k) size,
                 r.beginning.erasable_block_size⟩⟩,
              ⟨⟨r.beginning.location + roundUp (2 ^ k) size,
                 r.beginning.erasable_block_size⟩, r.end_⟩)) ∧
    (USIZE ≤ roundUp (2 ^ k) size ∨
        r.end_.location < r.beginning.location + roundUp (2 ^ k) size →
      r.take_at_least size = none) := by
  rw [take_at_least_eq r k hbs hk size hs hend]
  constructor
  · intro h1 h2
    rw [if_pos ⟨h1, h2⟩]
  · intro h1
    rw [if_neg (by omega)]

theorem c3_take_at_least_boundary_witness :
    (roundUp (2 ^ 2) 5 < USIZE →
      (ErasableRange.mk ⟨0, 4⟩ ⟨16, 4⟩).beginning.location +
          roundUp (2 ^ 2) 5 ≤ (ErasableRange.mk ⟨0, 4⟩ ⟨16, 4⟩).end_.location →
      (ErasableRange.mk ⟨0, 4⟩ ⟨16, 4⟩).take_at_least 5 =
        some (⟨(ErasableRange.mk ⟨0, 4⟩ ⟨16, 4⟩).beginning,
               ⟨(ErasableRange.mk ⟨0, 4⟩ ⟨16, 4⟩).beginning.location +
                   roundUp (2 ^ 2) 5,
                 (ErasableRange.mk ⟨0, 4⟩
                     ⟨16, 4⟩).beginning.erasable_block_size⟩⟩,
              ⟨⟨(ErasableRange.mk ⟨0, 4⟩ ⟨16, 4⟩).beginning.location +
                   roundUp (2 ^ 2) 5,
                 (ErasableRange.mk ⟨0, 4⟩
                     ⟨16, 4⟩).beginning.erasable_block_size⟩,
               (ErasableRange.mk ⟨0, 4⟩ ⟨16, 4⟩).end_⟩)) ∧
    (USIZE ≤ roundUp (2 ^ 2) 5 ∨
        (ErasableRange.mk ⟨0, 4⟩ ⟨16, 4⟩).end_.location <
          (ErasableRange.mk ⟨0, 4⟩ ⟨16, 4⟩).beginning.location +
            roundUp (2 ^ 2) 5 →
      (ErasableRange.mk ⟨0, 4⟩ ⟨16, 4⟩).take_at_least 5 = none) :=
  c3_take_at_least_boundary ⟨⟨0, 4⟩, ⟨16, 4⟩⟩ 2 rfl (by norm_num [U32]) 5
    (by norm_num [USIZE]) (by norm_num [U32])

/-- C5: whenever `ErasableRange::split_at_least` returns (that is, neither the
`unwrap` nor the internal asserts abort), the prefix is `[start, b)` and the
remainder is `[b, end)` for one common boundary `b`, so the two half-open
spans partition the original `[start, end)` exactly — no bytes lost or
duplicated. -/
theorem c5_split_preserves_extent (r : ErasableRange) (size : Nat)
    (p rem : ErasableRange) (h : r.split_at_least size = some (p, rem)) :
    p.beginning = r.beginning ∧ rem.end_ = r.end_ ∧ p.end_ = rem.beginning ∧
      Set.Ico p.beginning.location p.end_.location ∪
          Set.Ico rem.beginning.location rem.end_.location =
        Set.Ico r.beginning.location r.end_.location ∧
      Disjoint (Set.Ico p.beginning.location p.end_.location)
        (Set.Ico rem.beginning.location rem.end_.location) := by
  unfold ErasableRange.split_at_least at h
  cases hadv : r.beginning.advance_at_least size with
  | error e => rw [hadv] at h; cases h
  | ok x_end =>
    rw [hadv] at h
    dsimp only at h
    unfold ErasableRange.new? at h
    split_ifs at h with h1 h2
    · simp only [Option.bind_eq_bind, Option.some_bind, Option.some.injEq,
        Prod.mk.injEq] at h
      obtain ⟨rfl, rfl⟩ := h
      refine ⟨rfl, rfl, rfl, ?_, ?_⟩
      · exact Set.Ico_union_Ico_eq_Ico h1 h2
      · exact Set.Ico_disjoint_Ico_same
    · simp at h
    · simp at h
    · simp at h

theorem c5_split_preserves_extent_witness :
    (ErasableRange.mk ⟨0, 4⟩ ⟨8, 4⟩).beginning =
        (ErasableRange.mk ⟨0, 4⟩ ⟨16, 4⟩).beginning ∧
      (ErasableRange.mk ⟨8, 4⟩ ⟨16, 4⟩).end_ =
        (ErasableRange.mk ⟨0, 4⟩ ⟨16, 4⟩).end_ ∧
      (ErasableRange.mk ⟨0, 4⟩ ⟨8, 4⟩).end_ =
        (ErasableRange.mk ⟨8, 4⟩ ⟨16, 4⟩).beginning ∧
      Set.Ico (ErasableRange.mk ⟨0, 4⟩ ⟨8, 4⟩).beginning.location
            (ErasableRange.mk ⟨0, 4⟩ ⟨8, 4⟩).end_.location ∪
          Set.Ico (ErasableRange.mk ⟨8, 4⟩ ⟨16, 4⟩).beginning.location
            (ErasableRange.mk ⟨8, 4⟩ ⟨16, 4⟩).end_.location =
        Set.Ico (ErasableRange.mk ⟨0, 4⟩ ⟨16, 4⟩).beginning.location
          (ErasableRange.mk ⟨0, 4⟩ ⟨16, 4⟩).end_.location ∧
      Disjoint
        (Set.Ico (ErasableRange.mk ⟨0, 4⟩ ⟨8, 4⟩).beginning.location
          (ErasableRange.mk ⟨0, 4⟩ ⟨8, 4⟩).end_.location)
        (Set.Ico (ErasableRange.mk ⟨8, 4⟩ ⟨16, 4⟩).beginning.location
          (ErasableRange.mk ⟨8, 4⟩ ⟨16, 4⟩).end_.location) :=
  c5_split_preserves_extent ⟨⟨0, 4⟩, ⟨16, 4⟩⟩ 5 ⟨⟨0, 4⟩, ⟨8, 4⟩⟩
    ⟨⟨8, 4⟩, ⟨16, 4⟩⟩ rfl

/-- C6: on a whole medium `[0, E)`, `ArenaFlashAllocator::new` fails with the
recoverable error value `Error::Size` (not an abort) both when the medium is
smaller than the reserved offset and when the reserved region does not fit in
the remainder after the offset was carved; it returns `Err` before any
allocator value exists, so no partially-initialized allocator can be
produced (the `Result` return type makes that structural). -/
theorem c6_new_fails_with_size_error (k : Nat) (hk : 2 ^ k < U32)
    (E eb es : Nat) (hE : E < U32) (hebU : eb < USIZE) (hes : es < USIZE) :
    (E < eb →
      ArenaFlashAllocator.new eb es ⟨⟨0, 2 ^ k⟩, ⟨E, 2 ^ k⟩⟩ =
        some (.error .Size)) ∧
    (eb % 2 ^ k = 0 → eb ≤ E → E < eb + roundUp (2 ^ k) es →
      ArenaFlashAllocator.new eb es ⟨⟨0, 2 ^ k⟩, ⟨E, 2 ^ k⟩⟩ =
        some (.error .Size)) := by
  have hpos : 0 < 2 ^ k := Nat.two_pow_pos k
  constructor
  · intro hlt
    have hru := le_roundUp (2 ^ k) eb hpos
    have htake : ErasableRange.take_at_least ⟨⟨0, 2 ^ k⟩, ⟨E, 2 ^ k⟩⟩ eb =
        none := by
      rw [take_at_least_eq _ k rfl hk eb hebU hE,
        if_neg (by dsimp only; omega)]
    unfold ArenaFlashAllocator.new
    simp only [htake]
    simp
  · intro hal hle hover
    have hrueb : roundUp (2 ^ k) eb = eb :=
      roundUp_eq_self _ _ hpos (Nat.dvd_of_mod_eq_zero hal)
    have htake1 : ErasableRange.take_at_least ⟨⟨0, 2 ^ k⟩, ⟨E, 2 ^ k⟩⟩ eb =
        some (⟨⟨0, 2 ^ k⟩, ⟨eb, 2 ^ k⟩⟩, ⟨⟨eb, 2 ^ k⟩, ⟨E, 2 ^ k⟩⟩) := by
      rw [take_at_least_eq _ k rfl hk eb hebU hE, hrueb,
        if_pos (by refine ⟨by omega, ?_⟩; dsimp only; omega)]
      dsimp only
      norm_num
    have htake2 : ErasableRange.take_at_least ⟨⟨eb, 2 ^ k⟩, ⟨E, 2 ^ k⟩⟩ es =
        none := by
      rw [take_at_least_eq _ k rfl hk es hes hE,
        if_neg (by dsimp only; omega)]
    unfold ArenaFlashAllocator.new
    simp only [htake1, htake2]
    simp

theorem c6_new_fails_with_size_error_witness :
    (0x1000 < 0x2000 →
      ArenaFlashAllocator.new 0x2000 0x10 ⟨⟨0, 2 ^ 2⟩, ⟨0x1000, 2 ^ 2⟩⟩ =
        some (.error .Size)) ∧
    (0x2000 % 2 ^ 2 = 0 → 0x2000 ≤ 0x1000 →
      0x1000 < 0x2000 + roundUp (2 ^ 2) 0x10 →
      ArenaFlashAllocator.new 0x2000 0x10 ⟨⟨0, 2 ^ 2⟩, ⟨0x1000, 2 ^ 2⟩⟩ =
        some (.error .Size)) :=
  c6_new_fails_with_size_error 2 (by norm_num [U32]) 0x1000 0x2000 0x10
    (by norm_num [U32]) (by norm_num [USIZE]) (by norm_num [USIZE])

/-- C7 counterexample: `advance` has no distinct `Overflow` error kind.  At
the concrete input `location 0`, block size `4096`, amount `2 ^ 32` — an
amount that is a multiple of the block size but whose sum does not fit in a
`u32` — `advance` fails with `Error::Alignment`, the very same kind it
returns for the misaligned amount `1`; the `Error` enum in `lib.rs` has no
`Overflow` variant at all, so the claimed distinct-kind failure is false. -/
theorem c7_counterexample :
    ErasableLocation.advance ⟨0, 4096⟩ (2 ^ 32) = .error .Alignment ∧
      ErasableLocation.advance ⟨0, 4096⟩ 1 = .error .Alignment :=
  ⟨rfl, rfl⟩

/-- C7 amended: for a block-sized-aligned amount whose addition overflows the
representable `u32` address range, `advance` fails with `Error::Alignment` —
the same error kind it uses for misaligned amounts; there is no `Overflow`
error kind in the code. -/
theorem c7_overflow_error_is_alignment (loc : ErasableLocation) (k : Nat)
    (hbs : loc.erasable_block_size = 2 ^ k) (hk : 2 ^ k < U32)
    (amount : Nat) :
    (amount % 2 ^ k = 0 → U32 ≤ loc.location + amount →
      loc.advance amount = .error .Alignment) ∧
    (amount % 2 ^ k ≠ 0 → loc.advance amount = .error .Alignment) := by
  rw [advance_eq loc k hbs hk]
  constructor
  · intro h1 h2
    rw [if_pos h1]
    split_ifs with g1 g2
    · exact absurd g2 (by omega)
    · rfl
    · rfl
  · intro h1
    rw [if_neg h1]

theorem c7_overflow_error_is_alignment_witness :
    (2 ^ 32 % 2 ^ 12 = 0 → U32 ≤ (0 : Nat) + 2 ^ 32 →
      ErasableLocation.advance ⟨0, 4096⟩ (2 ^ 32) = .error .Alignment) ∧
    (2 ^ 32 % 2 ^ 12 ≠ 0 →
      ErasableLocation.advance ⟨0, 4096⟩ (2 ^ 32) = .error .Alignment) :=
  c7_overflow_error_is_alignment ⟨0, 4096⟩ 12 rfl (by norm_num [U32]) (2 ^ 32)

/-- C8 counterexample: 12 KiB is a legal erase-block size
(`Size::B12K`), yet `FlashAlign::erasable_location` — whose alignment test is
the bit mask `location & (block_size - 1)` — accepts the raw address `16384`,
which is not a multiple of `12288`.  The claimed "succeeds iff the raw
address is an exact multiple" therefore fails for non-power-of-two block
sizes (the `FlashAlign` trait documents that it assumes a power of two). -/
theorem c8_counterexample :
    FlashAlign.erasable_location (BlockSize.toNat BlockSize.B12K) 16384 =
        some ⟨16384, 12288⟩ ∧
      16384 % BlockSize.toNat BlockSize.B12K ≠ 0 :=
  ⟨rfl, by decide⟩

/-- C8 amended: for power-of-two block sizes — the case `FlashAlign` is
documented to assume — `erasable_location` succeeds iff the raw address is an
exact multiple of the block size; and `Size::is_aligned` from `block.rs`
holds iff the value is an exact multiple, for every legal block size
including the non-power-of-two multiples (12 KiB, 40 KiB, 60 KiB, ...). -/
theorem c8_aligned_iff_multiple (k : Nat) (hk : 2 ^ k < U32) (loc : Nat)
    (s : BlockSize) (n : Nat) (hn : n < USIZE) :
    ((FlashAlign.erasable_location (2 ^ k) loc).isSome ↔ loc % 2 ^ k = 0) ∧
    (BlockSize.is_aligned s n = true ↔ n % s.toNat = 0) := by
  constructor
  · unfold FlashAlign.erasable_location FlashAlign.is_aligned
      FlashAlign.erasable_block_mask
    rw [Nat.mod_eq_of_lt hk, Nat.and_pow_two_sub_one_eq_mod]
    by_cases h : loc % 2 ^ k = 0 <;> simp [h]
  · have hpos : 0 < s.toNat := by cases s <;> norm_num [BlockSize.toNat, KIB]
    unfold BlockSize.is_aligned BlockSize.align_up
    rw [if_neg (by omega)]
    dsimp only
    constructor
    · intro h
      by_cases hlt : (n + s.toNat - 1) / s.toNat * s.toNat < USIZE
      · rw [if_pos hlt] at h
        dsimp only at h
        have heq : (n + s.toNat - 1) / s.toNat * s.toNat = n := by
          simpa using h
        have hdvd : s.toNat ∣ n := heq ▸ roundUp_dvd s.toNat n
        exact Nat.mod_eq_zero_of_dvd hdvd
      · rw [if_neg hlt] at h
        cases h
    · intro h
      have heq : roundUp s.toNat n = n :=
        roundUp_eq_self _ _ hpos (Nat.dvd_of_mod_eq_zero h)
      have heq2 : (n + s.toNat - 1) / s.toNat * s.toNat = n := heq
      rw [heq2, if_pos (by omega)]
      dsimp only
      simp

theorem c8_aligned_iff_multiple_witness :
    ((FlashAlign.erasable_location (2 ^ 12) 16384).isSome ↔
        16384 % 2 ^ 12 = 0) ∧
      (BlockSize.is_aligned BlockSize.B12K 12288 = true ↔
        12288 % BlockSize.toNat BlockSize.B12K = 0) :=
  c8_aligned_iff_multiple 12 (by norm_num [U32]) 16384 BlockSize.B12K 12288
    (by norm_num [USIZE])

/-- C9: whenever the requested size is strictly greater than
`max_contiguous_capacity()` — which is exactly the larger of the two free
pools' current capacities — `take_at_least` returns the "unsatisfiable"
outcome `None` and leaves the allocator unchanged. -/
theorem c9_over_capacity_unsatisfiable (s : ArenaFlashAllocator) (n : Nat)
    (h : s.max_contiguous_capacity < n) :
    s.take_at_least n = (none, s) ∧
      s.max_contiguous_capacity =
        max s.free0.capacity s.free1.capacity := by
  have hmax : s.max_contiguous_capacity =
      max s.free0.capacity s.free1.capacity := by
    unfold ArenaFlashAllocator.max_contiguous_capacity
    dsimp only
    split_ifs <;> omega
  rw [hmax] at h
  have h0 : s.free0.capacity < n := by omega
  have h1 : s.free1.capacity < n := by omega
  refine ⟨?_, hmax⟩
  unfold ArenaFlashAllocator.take_at_least
  rw [take_none_of_capacity_lt _ _ h0]
  dsimp only
  rw [take_none_of_capacity_lt _ _ h1]

theorem c9_over_capacity_unsatisfiable_witness :
    (ArenaFlashAllocator.mk
        ⟨⟨0x20000, 4⟩, ⟨0x20200, 4⟩⟩
        ⟨⟨0, 4⟩, ⟨0x20000, 4⟩⟩
        ⟨⟨0x20200, 4⟩, ⟨0x40000, 4⟩⟩).take_at_least 0x20000000 =
      (none, ArenaFlashAllocator.mk
        ⟨⟨0x20000, 4⟩, ⟨0x20200, 4⟩⟩
        ⟨⟨0, 4⟩, ⟨0x20000, 4⟩⟩
        ⟨⟨0x20200, 4⟩, ⟨0x40000, 4⟩⟩) ∧
    (ArenaFlashAllocator.mk
        ⟨⟨0x20000, 4⟩, ⟨0x20200, 4⟩⟩
        ⟨⟨0, 4⟩, ⟨0x20000, 4⟩⟩
        ⟨⟨0x20200, 4⟩, ⟨0x40000, 4⟩⟩).max_contiguous_capacity =
      max (ErasableRange.mk ⟨0, 4⟩ ⟨0x20000, 4⟩).capacity
        (ErasableRange.mk ⟨0x20200, 4⟩ ⟨0x40000, 4⟩).capacity :=
  c9_over_capacity_unsatisfiable
    (ArenaFlashAllocator.mk
      ⟨⟨0x20000, 4⟩, ⟨0x20200, 4⟩⟩
      ⟨⟨0, 4⟩, ⟨0x20000, 4⟩⟩
      ⟨⟨0x20200, 4⟩, ⟨0x40000, 4⟩⟩) 0x20000000 (by norm_num
        [ArenaFlashAllocator.max_contiguous_capacity, ErasableRange.capacity,
         ErasableLocation.extent])

theorem chunks_nil {α : Type} (n : Nat) : chunks n ([] : List α) = [] := by
  unfold chunks
  cases n <;> rfl

theorem chunks_cons {α : Type} (n : Nat) (hn : 0 < n) (x : α) (xs : List α) :
    chunks n (x :: xs) =
      (x :: xs).take n :: chunks n ((x :: xs).drop n) := by
  obtain ⟨m, rfl⟩ : ∃ m, n = m + 1 := ⟨n - 1, by omega⟩
  conv_lhs => unfold chunks

/-- Chunking never loses or duplicates a byte: concatenating the chunks gives
back the buffer. -/
theorem chunks_join_bounded {α : Type} (bs : Nat) (hbs : 0 < bs) :
    ∀ N (l : List α), l.length ≤ N → (chunks bs l).flatten = l := by
  intro N
  induction N with
  | zero =>
    intro l hl
    have hnil : l = [] := List.eq_nil_of_length_eq_zero (by omega)
    subst hnil
    rw [chunks_nil]
    rfl
  | succ N ih =>
    intro l hl
    cases l with
    | nil => rw [chunks_nil]; rfl
    | cons x xs =>
      rw [chunks_cons bs hbs x xs]
      have hrec : (chunks bs ((x :: xs).drop bs)).flatten =
          (x :: xs).drop bs := by
        apply ih
        simp only [List.length_drop, List.length_cons]
        simp only [List.length_cons] at hl
        omega
      simp only [List.flatten_cons, hrec]
      exact List.take_append_drop _ _

/-- Behaviour of the `erase_and_write_blocks` loop over the chunked buffer
when the backing store's block write always succeeds: it returns `Ok`, calls
the block write exactly once per chunk in order, and the `i`-th call is at
the start location advanced by `i` erase blocks. -/
theorem go_spec {α : Type} (f : ErasableLocation → List α → Except Error Unit)
    (hf : ∀ l c, f l c = .ok ()) (k : Nat) (hk : 2 ^ k < U32) :
    ∀ N (buf : List α), buf.length ≤ N → ∀ loc : ErasableLocation,
      loc.erasable_block_size = 2 ^ k →
      loc.location + buf.length < U32 →
      (erase_and_write_blocks_go f (2 ^ k) loc (chunks (2 ^ k) buf)).2 =
          .ok () ∧
        (erase_and_write_blocks_go f (2 ^ k) loc
            (chunks (2 ^ k) buf)).1.map Prod.snd = chunks (2 ^ k) buf ∧
        (erase_and_write_blocks_go f (2 ^ k) loc
            (chunks (2 ^ k) buf)).1.map (fun p => p.1.location) =
          blockLocs loc.location (2 ^ k) (chunks (2 ^ k) buf).length := by
  intro N
  induction N with
  | zero =>
    intro buf hbuf loc hlbs hfit
    have hnil : buf = [] := List.eq_nil_of_length_eq_zero (by omega)
    subst hnil
    rw [chunks_nil]
    exact ⟨rfl, rfl, rfl⟩
  | succ N ih =>
    intro buf hbuf loc hlbs hfit
    cases buf with
    | nil =>
      rw [chunks_nil]
      exact ⟨rfl, rfl, rfl⟩
    | cons x xs =>
      have hpos : 0 < 2 ^ k := Nat.two_pow_pos k
      rw [chunks_cons (2 ^ k) hpos x xs]
      by_cases hfull : ((x :: xs).take (2 ^ k)).length = 2 ^ k
      · -- full first chunk
        have htk : 2 ^ k ≤ xs.length + 1 := by
          rw [List.length_take, List.length_cons] at hfull
          omega
        have hlt32 : loc.location + 2 ^ k < U32 := by
          simp only [List.length_cons] at hfit
          omega
        have hadv : loc.advance (2 ^ k) =
            .ok ⟨loc.location + 2 ^ k, loc.erasable_block_size⟩ := by
          rw [advance_eq loc k hlbs hk]
          have hU : U32 < USIZE := by norm_num [U32, USIZE]
          rw [if_pos (Nat.mod_self _), if_pos (by omega), if_pos hlt32]
        have hgo : erase_and_write_blocks_go f (2 ^ k) loc
            ((x :: xs).take (2 ^ k) ::
              chunks (2 ^ k) ((x :: xs).drop (2 ^ k))) =
            ((loc, (x :: xs).take (2 ^ k)) ::
              (erase_and_write_blocks_go f (2 ^ k)
                ⟨loc.location + 2 ^ k, loc.erasable_block_size⟩
                (chunks (2 ^ k) ((x :: xs).drop (2 ^ k)))).1,
             (erase_and_write_blocks_go f (2 ^ k)
                ⟨loc.location + 2 ^ k, loc.erasable_block_size⟩
                (chunks (2 ^ k) ((x :: xs).drop (2 ^ k)))).2) := by
          simp only [erase_and_write_blocks_go]
          rw [hf loc ((x :: xs).take (2 ^ k))]
          dsimp only
          rw [if_neg (not_not_intro hfull), hadv]
        have ihres := ih ((x :: xs).drop (2 ^ k))
          (by
            simp only [List.length_drop, List.length_cons]
            simp only [List.length_cons] at hbuf
            omega)
          ⟨loc.location + 2 ^ k, loc.erasable_block_size⟩
          (by dsimp only; exact hlbs)
          (by
            dsimp only
            simp only [List.length_drop, List.length_cons]
            simp only [List.length_cons] at hfit
            omega)
        obtain ⟨ih1, ih2, ih3⟩ := ihres
        rw [hgo]
        refine ⟨ih1, by simp only [List.map_cons, ih2], ?_⟩
        simp only [List.map_cons, ih3, List.length_cons]
        rfl
      · -- short (hence final) chunk
        have hlen : xs.length + 1 < 2 ^ k := by
          rw [List.length_take, List.length_cons] at hfull
          omega
        have hdrop : (x :: xs).drop (2 ^ k) = [] := by
          apply List.drop_eq_nil_of_le
          simp only [List.length_cons]
          omega
        have hgo : erase_and_write_blocks_go f (2 ^ k) loc
            ((x :: xs).take (2 ^ k) ::
              chunks (2 ^ k) ((x :: xs).drop (2 ^ k))) =
            ([(loc, (x :: xs).take (2 ^ k))], .ok ()) := by
          simp only [erase_and_write_blocks_go]
          rw [hf loc ((x :: xs).take (2 ^ k))]
          dsimp only
          rw [if_pos hfull]
        rw [hgo, hdrop, chunks_nil]
        exact ⟨rfl, rfl, rfl⟩

/-- C10: when the backing store's single-block write always succeeds and the
buffer fits in the address space, `erase_and_write_blocks` calls
`erase_and_write_block` exactly once per block-sized chunk of the buffer, in
order (the call trace's data column is exactly `chunks`), advancing the
location by exactly one erase-block size between chunks (the trace's location
column is exactly `blockLocs`); chunking yields full chunks everywhere but
possibly last, so the early `break` on a short chunk only happens on the
final chunk and no byte is skipped (`flatten` of the chunks is the buffer);
an empty buffer produces zero block writes and success. -/
theorem c10_one_write_per_chunk {α : Type}
    (f : ErasableLocation → List α → Except Error Unit)
    (hf : ∀ l c, f l c = .ok ()) (k : Nat) (hk : 2 ^ k < U32)
    (loc : ErasableLocation) (hlbs : loc.erasable_block_size = 2 ^ k)
    (buf : List α) (hfit : loc.location + buf.length < U32) :
    (erase_and_write_blocks f (2 ^ k) loc buf).2 = .ok () ∧
      (erase_and_write_blocks f (2 ^ k) loc buf).1.map Prod.snd =
        chunks (2 ^ k) buf ∧
      (erase_and_write_blocks f (2 ^ k) loc buf).1.map
          (fun p => p.1.location) =
        blockLocs loc.location (2 ^ k) (chunks (2 ^ k) buf).length ∧
      (chunks (2 ^ k) buf).flatten = buf ∧
      (buf = [] → (erase_and_write_blocks f (2 ^ k) loc buf).1 = []) := by
  obtain ⟨h1, h2, h3⟩ :=
    go_spec f hf k hk buf.length buf (Nat.le_refl _) loc hlbs hfit
  refine ⟨h1, h2, h3,
    chunks_join_bounded (2 ^ k) (Nat.two_pow_pos k) buf.length buf
      (Nat.le_refl _), ?_⟩
  intro hnil
  subst hnil
  unfold erase_and_write_blocks
  rw [chunks_nil]
  rfl

theorem c10_one_write_per_chunk_witness :
    (erase_and_write_blocks (fun _ _ => .ok ()) (2 ^ 2)
        ⟨0, 2 ^ 2⟩ [1, 2, 3, 4, 5, 6]).2 = .ok () ∧
      (erase_and_write_blocks (fun _ _ => .ok ()) (2 ^ 2)
          ⟨0, 2 ^ 2⟩ [1, 2, 3, 4, 5, 6]).1.map Prod.snd =
        chunks (2 ^ 2) [1, 2, 3, 4, 5, 6] ∧
      (erase_and_write_blocks (fun _ _ => .ok ()) (2 ^ 2)
          ⟨0, 2 ^ 2⟩ [1, 2, 3, 4, 5, 6]).1.map (fun p => p.1.location) =
        blockLocs (ErasableLocation.mk 0 (2 ^ 2)).location (2 ^ 2)
          (chunks (2 ^ 2) [1, 2, 3, 4, 5, 6]).length ∧
      (chunks (2 ^ 2) [1, 2, 3, 4, 5, 6]).flatten = [1, 2, 3, 4, 5, 6] ∧
      ([1, 2, 3, 4, 5, 6] = ([] : List Nat) →
        (erase_and_write_blocks (fun _ _ => .ok ()) (2 ^ 2)
            ⟨0, 2 ^ 2⟩ [1, 2, 3, 4, 5, 6]).1 = []) :=
  c10_one_write_per_chunk (fun _ _ => .ok ()) (fun _ _ => rfl) 2
    (by norm_num [U32]) ⟨0, 2 ^ 2⟩ rfl [1, 2, 3, 4, 5, 6]
    (by norm_num [U32])
